import Mathlib

/-!
Verification development for the clinical-notes classification pipeline
(`src/utils.py`).  The Python functions are shallowly embedded as Lean
definitions: pandas data frames become association lists of named columns,
numeric values become rationals or reals, and calls into external ML
libraries (torch models, tokenizers) become explicit function parameters.
-/

set_option linter.unusedSectionVars false
set_option linter.unusedVariables false

namespace Holmusk

/-- Model of a Python dict / pandas column assignment `d[k] = v`:
if the key is already present its value is overwritten in place (position
preserved); otherwise the pair is appended at the end.  This is the
semantics of both `dict.__setitem__` and `DataFrame.__setitem__`. -/
def dictInsert {β : Type} (d : List (String × β)) (k : String) (v : β) :
    List (String × β) :=
  if d.any (fun p => p.1 = k) then
    d.map (fun p => if p.1 = k then (k, v) else p)
  else
    d ++ [(k, v)]

theorem dictInsert_of_not_mem {β : Type} (d : List (String × β)) (k : String) (v : β)
    (h : k ∉ d.map Prod.fst) : dictInsert d k v = d ++ [(k, v)] := by
  unfold dictInsert
  rw [if_neg]
  simp only [List.any_eq_true, decide_eq_true_eq]
  rintro ⟨p, hp, hpk⟩
  exact h (hpk ▸ List.mem_map.2 ⟨p, hp, rfl⟩)

theorem dictInsert_keys_of_mem {β : Type} (d : List (String × β)) (k : String) (v : β)
    (h : k ∈ d.map Prod.fst) : (dictInsert d k v).map Prod.fst = d.map Prod.fst := by
  unfold dictInsert
  rw [if_pos]
  · rw [List.map_map]
    apply List.map_congr_left
    intro p _
    by_cases hp : p.1 = k
    · simp [hp]
    · simp [hp]
  · simp only [List.any_eq_true, decide_eq_true_eq]
    obtain ⟨p, hp, hk⟩ := List.mem_map.1 h
    exact ⟨p, hp, hk⟩

/-! ### TermGraphResolver: `get_components` (src/utils.py lines 30-50)

`get_components` builds an undirected graph with one edge per table row
(columns `Term1`, `Term2`) and returns its connected components.  The
table is modelled as the list of its rows; the networkx component search
is modelled by an executable breadth-first saturation. -/

variable {α : Type} [DecidableEq α]

/-- All terms occurring in either column of the table, in node-insertion
order (for each row, `Term1` then `Term2`, first occurrence kept) —
the order in which `graph.add_edges_from` inserts nodes. -/
def termsList (t : List (α × α)) : List α :=
  (t.flatMap (fun r => [r.1, r.2])).dedup

/-- The node set that `graph.add_edges_from` produces: every edge endpoint. -/
def termsOf (t : List (α × α)) : Finset α :=
  (termsList t).toFinset

theorem mem_termsOf (t : List (α × α)) (a : α) :
    a ∈ termsOf t ↔ (∃ b, (a, b) ∈ t) ∨ (∃ b, (b, a) ∈ t) := by
  unfold termsOf termsList
  rw [List.mem_toFinset, List.mem_dedup, List.mem_flatMap]
  constructor
  · rintro ⟨r, hr, hmem⟩
    simp only [List.mem_cons, List.mem_singleton, List.not_mem_nil, or_false] at hmem
    rcases hmem with h | h
    · exact Or.inl ⟨r.2, by rwa [h]⟩
    · exact Or.inr ⟨r.1, by rwa [h]⟩
  · rintro (⟨b, hb⟩ | ⟨b, hb⟩)
    · exact ⟨(a, b), hb, by simp⟩
    · exact ⟨(b, a), hb, by simp⟩

/-- The (undirected) edge relation: one edge per row between `Term1` and
`Term2`.  Duplicate rows collapse, a self-pairing row gives a self-loop. -/
def adjTab (t : List (α × α)) (a b : α) : Prop :=
  (a, b) ∈ t ∨ (b, a) ∈ t

instance (t : List (α × α)) (a b : α) : Decidable (adjTab t a b) := by
  unfold adjTab; infer_instance

theorem adjTab_symm (t : List (α × α)) {a b : α} (h : adjTab t a b) : adjTab t b a :=
  h.symm

theorem adjTab_mem_left (t : List (α × α)) {a b : α} (h : adjTab t a b) :
    a ∈ termsOf t := by
  rw [mem_termsOf]
  rcases h with h | h
  · exact Or.inl ⟨b, h⟩
  · exact Or.inr ⟨b, h⟩

theorem adjTab_mem_right (t : List (α × α)) {a b : α} (h : adjTab t a b) :
    b ∈ termsOf t :=
  adjTab_mem_left t (adjTab_symm t h)

/-- Neighbours of a node in the row graph. -/
def nbrs (t : List (α × α)) (a : α) : Finset α :=
  (termsOf t).filter (fun b => adjTab t a b)

theorem mem_nbrs (t : List (α × α)) {a b : α} : b ∈ nbrs t a ↔ adjTab t a b := by
  unfold nbrs
  constructor
  · intro h; exact (Finset.mem_filter.1 h).2
  · intro h; exact Finset.mem_filter.2 ⟨adjTab_mem_right t h, h⟩

/-- One step of breadth-first saturation: add all neighbours of the set. -/
def grow (t : List (α × α)) (s : Finset α) : Finset α :=
  s ∪ s.biUnion (nbrs t)

theorem subset_grow (t : List (α × α)) (s : Finset α) : s ⊆ grow t s :=
  Finset.subset_union_left

theorem grow_subset_terms (t : List (α × α)) {s : Finset α} (h : s ⊆ termsOf t) :
    grow t s ⊆ termsOf t := by
  unfold grow
  apply Finset.union_subset h
  intro b hb
  obtain ⟨a, _, hab⟩ := Finset.mem_biUnion.1 hb
  exact adjTab_mem_right t ((mem_nbrs t).1 hab)

theorem mem_grow_of_adj (t : List (α × α)) {s : Finset α} {a b : α}
    (ha : a ∈ s) (hab : adjTab t a b) : b ∈ grow t s :=
  Finset.mem_union_right _ (Finset.mem_biUnion.2 ⟨a, ha, (mem_nbrs t).2 hab⟩)

/-- The connected component containing `v`: saturate neighbour expansion
`card (termsOf t)` times starting from `{v}`. -/
def componentOf (t : List (α × α)) (v : α) : Finset α :=
  (grow t)^[(termsOf t).card] {v}

/-- Model of `get_components` (src/utils.py lines 30-50): raises
`ValueError` (modelled as `none`) on an empty table, otherwise returns
the list of connected components, one per term, duplicates removed. -/
def get_components (t : List (α × α)) : Option (List (Finset α)) :=
  if t = [] then none
  else some (((termsList t).map (componentOf t)).dedup)

theorem grow_iterate_fixed (t : List (α × α)) {s : Finset α} (h : grow t s = s) :
    ∀ n, (grow t)^[n] s = s := by
  intro n
  induction n with
  | zero => rfl
  | succ n ih => rw [Function.iterate_succ_apply, h, ih]

theorem iterate_grow_subset_terms (t : List (α × α)) {s : Finset α}
    (h : s ⊆ termsOf t) : ∀ n, (grow t)^[n] s ⊆ termsOf t := by
  intro n
  induction n with
  | zero => exact h
  | succ n ih =>
      rw [Function.iterate_succ_apply']
      exact grow_subset_terms t ih

/-- Either the `n`-th iterate is already a fixed point of `grow`, or its
cardinality has grown by at least `n`. -/
theorem iterate_grow_card (t : List (α × α)) (s : Finset α) :
    ∀ n : ℕ, grow t ((grow t)^[n] s) = (grow t)^[n] s ∨
      n + s.card ≤ ((grow t)^[n] s).card := by
  intro n
  induction n with
  | zero => right; simp
  | succ n ih =>
      rcases ih with hfix | hcard
      · left
        rw [Function.iterate_succ_apply', hfix, hfix]
      · by_cases hfix : grow t ((grow t)^[n] s) = (grow t)^[n] s
        · left
          rw [Function.iterate_succ_apply', hfix, hfix]
        · right
          rw [Function.iterate_succ_apply']
          have hss : (grow t)^[n] s ⊂ grow t ((grow t)^[n] s) :=
            HasSubset.Subset.ssubset_of_ne (subset_grow t _) (Ne.symm hfix)
          have := Finset.card_lt_card hss
          omega

/-- The component is a fixed point of one more expansion step. -/
theorem grow_componentOf (t : List (α × α)) {v : α} (hv : v ∈ termsOf t) :
    grow t (componentOf t v) = componentOf t v := by
  unfold componentOf
  rcases iterate_grow_card t {v} (termsOf t).card with h | h
  · exact h
  · exfalso
    have hsub : ({v} : Finset α) ⊆ termsOf t := Finset.singleton_subset_iff.2 hv
    have hle := Finset.card_le_card (iterate_grow_subset_terms t hsub (termsOf t).card)
    simp only [Finset.card_singleton] at h
    omega

theorem self_mem_componentOf (t : List (α × α)) (v : α) : v ∈ componentOf t v := by
  unfold componentOf
  have : ({v} : Finset α) ⊆ (grow t)^[(termsOf t).card] {v} := by
    induction (termsOf t).card with
    | zero => exact fun x hx => hx
    | succ n ih =>
        rw [Function.iterate_succ_apply']
        exact fun x hx => subset_grow t _ (ih hx)
  exact this (Finset.mem_singleton_self v)

/-- Soundness of saturation: every member of an iterate is reachable from
some seed element by a chain of table rows. -/
theorem iterate_grow_sound (t : List (α × α)) :
    ∀ (n : ℕ) (s : Finset α) (w : α), w ∈ (grow t)^[n] s →
      ∃ u ∈ s, Relation.ReflTransGen (adjTab t) u w := by
  intro n
  induction n with
  | zero => exact fun s w hw => ⟨w, hw, Relation.ReflTransGen.refl⟩
  | succ n ih =>
      intro s w hw
      rw [Function.iterate_succ_apply] at hw
      obtain ⟨u, hu, hchain⟩ := ih (grow t s) w hw
      rcases Finset.mem_union.1 hu with hus | hub
      · exact ⟨u, hus, hchain⟩
      · obtain ⟨x, hx, hxu⟩ := Finset.mem_biUnion.1 hub
        exact ⟨x, hx, Relation.ReflTransGen.head ((mem_nbrs t).1 hxu) hchain⟩

/-- Completeness: a `grow`-fixed set containing `v` contains everything
reachable from `v`. -/
theorem fixed_closed (t : List (α × α)) {s : Finset α} (hfix : grow t s = s)
    {v w : α} (hv : v ∈ s) (h : Relation.ReflTransGen (adjTab t) v w) : w ∈ s := by
  induction h with
  | refl => exact hv
  | tail _ hadj ih => exact hfix ▸ mem_grow_of_adj t ih hadj

/-- Characterisation: for a term of the table, its component is exactly
the set of terms linked to it by a chain of rows. -/
theorem mem_componentOf_iff (t : List (α × α)) {v : α} (hv : v ∈ termsOf t) (w : α) :
    w ∈ componentOf t v ↔ Relation.ReflTransGen (adjTab t) v w := by
  constructor
  · intro hw
    obtain ⟨u, hu, hchain⟩ := iterate_grow_sound t _ _ _ hw
    rw [Finset.mem_singleton] at hu
    exact hu ▸ hchain
  · intro h
    exact fixed_closed t (grow_componentOf t hv) (self_mem_componentOf t v) h

theorem rtg_adj_symm (t : List (α × α)) {v w : α}
    (h : Relation.ReflTransGen (adjTab t) v w) :
    Relation.ReflTransGen (adjTab t) w v :=
  Relation.ReflTransGen.symmetric (fun _ _ hab => adjTab_symm t hab) h

theorem componentOf_eq_of_rtg (t : List (α × α)) {v w : α}
    (hv : v ∈ termsOf t) (hw : w ∈ termsOf t)
    (h : Relation.ReflTransGen (adjTab t) v w) :
    componentOf t v = componentOf t w := by
  apply Finset.ext
  intro x
  rw [mem_componentOf_iff t hv, mem_componentOf_iff t hw]
  constructor
  · intro hvx
    exact Relation.ReflTransGen.trans (rtg_adj_symm t h) hvx
  · intro hwx
    exact Relation.ReflTransGen.trans h hwx

theorem componentOf_subset_terms (t : List (α × α)) {v : α} (hv : v ∈ termsOf t) :
    componentOf t v ⊆ termsOf t :=
  iterate_grow_subset_terms t (Finset.singleton_subset_iff.2 hv) _

theorem mem_components_iff (t : List (α × α)) (c : Finset α) :
    c ∈ ((termsList t).map (componentOf t)).dedup ↔
      ∃ u ∈ termsOf t, componentOf t u = c := by
  rw [List.mem_dedup, List.mem_map]
  constructor
  · rintro ⟨u, hu, rfl⟩
    exact ⟨u, List.mem_toFinset.2 hu, rfl⟩
  · rintro ⟨u, hu, rfl⟩
    exact ⟨u, List.mem_toFinset.1 hu, rfl⟩

/-- C1: for every non-empty term-matching table, `get_components` returns a
partition of the set of all terms appearing in either column: every such
term belongs to exactly one returned component (components being sets of
terms of the table), and two terms lie in the same component if and only if
they are linked by a chain of rows of the table. -/
theorem get_components_partition (t : List (α × α)) (ht : t ≠ []) :
    ∃ comps : List (Finset α), get_components t = some comps ∧
      (∀ c ∈ comps, c ⊆ termsOf t) ∧
      (∀ v ∈ termsOf t, ∃! c, c ∈ comps ∧ v ∈ c) ∧
      (∀ v ∈ termsOf t, ∀ w ∈ termsOf t,
        ((∃ c ∈ comps, v ∈ c ∧ w ∈ c) ↔ Relation.ReflTransGen (adjTab t) v w)) := by
  refine ⟨((termsList t).map (componentOf t)).dedup, ?_, ?_, ?_, ?_⟩
  · unfold get_components
    rw [if_neg ht]
  · intro c hc
    obtain ⟨u, hu, rfl⟩ := (mem_components_iff t c).1 hc
    exact componentOf_subset_terms t hu
  · intro v hv
    refine ⟨componentOf t v, ⟨(mem_components_iff t _).2 ⟨v, hv, rfl⟩,
      self_mem_componentOf t v⟩, ?_⟩
    rintro c ⟨hc, hvc⟩
    obtain ⟨u, hu, rfl⟩ := (mem_components_iff t c).1 hc
    exact componentOf_eq_of_rtg t hu hv ((mem_componentOf_iff t hu v).1 hvc)
  · intro v hv w hw
    constructor
    · rintro ⟨c, hc, hvc, hwc⟩
      obtain ⟨u, hu, rfl⟩ := (mem_components_iff t c).1 hc
      exact Relation.ReflTransGen.trans
        (rtg_adj_symm t ((mem_componentOf_iff t hu v).1 hvc))
        ((mem_componentOf_iff t hu w).1 hwc)
    · intro hchain
      exact ⟨componentOf t v, (mem_components_iff t _).2 ⟨v, hv, rfl⟩,
        self_mem_componentOf t v, (mem_componentOf_iff t hv w).2 hchain⟩

/-- Concrete three-row table used to witness the component theorems. -/
def exampleTable : List (String × String) :=
  [("a", "b"), ("b", "c"), ("d", "d")]

/-- Witness for C1 at a concrete table (two chained rows plus a self-loop). -/
theorem get_components_partition_witness :
    exampleTable ≠ [] ∧
    (∃ comps : List (Finset String), get_components exampleTable = some comps ∧
      (∀ c ∈ comps, c ⊆ termsOf exampleTable) ∧
      (∀ v ∈ termsOf exampleTable, ∃! c, c ∈ comps ∧ v ∈ c) ∧
      (∀ v ∈ termsOf exampleTable, ∀ w ∈ termsOf exampleTable,
        ((∃ c ∈ comps, v ∈ c ∧ w ∈ c) ↔
          Relation.ReflTransGen (adjTab exampleTable) v w))) :=
  ⟨by decide, get_components_partition exampleTable (by decide)⟩

/-- C6: `get_components` raises the designated value error exactly on the
empty table (`none` models the raised `ValueError`). -/
theorem get_components_error_iff_empty (t : List (α × α)) :
    get_components t = none ↔ t = [] := by
  unfold get_components
  by_cases ht : t = []
  · simp [ht]
  · simp [ht]

/-! ### EmbeddingSimilarityScorer: `get_plain_embedding_similarity`
(src/utils.py lines 53-80)

The term-matching data frame has the two fixed term columns plus the
similarity columns accumulated over the run.  The transformer model and
tokenizer are external: the whole chain
`tokenizer(pair) |> model |> hidden_states[-1].mean(dim=1)` is modelled as
an opaque function from a word pair to the two embedding vectors.
`sklearn.metrics.pairwise.cosine_similarity` normalises each vector by its
euclidean norm (replacing a zero norm by 1) and takes the dot product. -/

/-- The term-matching data frame: columns `Term1`, `Term2` plus the
accumulated similarity columns. -/
structure TermDF where
  term1 : List String
  term2 : List String
  extra : List (String × List ℝ)

/-- Key lookup in the column association list. -/
def dfLookup {β : Type} (d : List (String × β)) (k : String) : Option β :=
  match d with
  | [] => none
  | p :: rest => if p.1 = k then some p.2 else dfLookup rest k

def dotp {d : ℕ} (u v : Fin d → ℝ) : ℝ := ∑ i, u i * v i

/-- Euclidean norm used by sklearn's `normalize`. -/
noncomputable def vnorm {d : ℕ} (u : Fin d → ℝ) : ℝ := Real.sqrt (dotp u u)

/-- sklearn `normalize` replaces a zero norm by 1 before dividing. -/
noncomputable def sklearnNorm {d : ℕ} (u : Fin d → ℝ) : ℝ :=
  if vnorm u = 0 then 1 else vnorm u

/-- `cosine_similarity([a, b])[0][1]`: dot product of the two normalised
vectors. -/
noncomputable def cosineSim {d : ℕ} (u v : Fin d → ℝ) : ℝ :=
  dotp u v / (sklearnNorm u * sklearnNorm v)

/-- Model of `get_plain_embedding_similarity` (src/utils.py lines 53-80):
computes one cosine-similarity score per word pair, in input order, and
assigns the list as column `mod + "_Cosine_Similarity"` of the data
frame. -/
noncomputable def get_plain_embedding_similarity {d : ℕ} (mod : String)
    (embed : String × String → (Fin d → ℝ) × (Fin d → ℝ))
    (term_matching : TermDF) (word_pairs : List (String × String)) : TermDF :=
  let embeddings := word_pairs.map embed
  let similarities := embeddings.map (fun w => cosineSim w.1 w.2)
  { term_matching with
      extra := dictInsert term_matching.extra (mod ++ "_Cosine_Similarity")
        similarities }

theorem dotp_self_nonneg {d : ℕ} (u : Fin d → ℝ) : 0 ≤ dotp u u :=
  Finset.sum_nonneg (fun i _ => mul_self_nonneg (u i))

theorem vnorm_nonneg {d : ℕ} (u : Fin d → ℝ) : 0 ≤ vnorm u :=
  Real.sqrt_nonneg _

theorem dotp_comm {d : ℕ} (u v : Fin d → ℝ) : dotp u v = dotp v u :=
  Finset.sum_congr rfl (fun i _ => mul_comm (u i) (v i))

theorem dotp_eq_zero_of_vnorm_eq_zero {d : ℕ} {u : Fin d → ℝ}
    (h : vnorm u = 0) (v : Fin d → ℝ) : dotp u v = 0 := by
  unfold vnorm at h
  have hle : dotp u u ≤ 0 := Real.sqrt_eq_zero'.1 h
  have hself : dotp u u = 0 := le_antisymm hle (dotp_self_nonneg u)
  have hzero : ∀ i, u i = 0 := by
    intro i
    have hterm := (Finset.sum_eq_zero_iff_of_nonneg
      (fun j _ => mul_self_nonneg (u j))).1 hself i (Finset.mem_univ i)
    exact mul_self_eq_zero.1 hterm
  unfold dotp
  apply Finset.sum_eq_zero
  intro i _
  rw [hzero i, zero_mul]

theorem abs_dotp_le {d : ℕ} (u v : Fin d → ℝ) :
    |dotp u v| ≤ vnorm u * vnorm v := by
  have hpos : ∑ i : Fin d, u i * v i ≤
      Real.sqrt (∑ i : Fin d, u i ^ 2) * Real.sqrt (∑ i : Fin d, v i ^ 2) :=
    Real.sum_mul_le_sqrt_mul_sqrt Finset.univ u v
  have hneg : ∑ i : Fin d, -u i * v i ≤
      Real.sqrt (∑ i : Fin d, (-u i) ^ 2) * Real.sqrt (∑ i : Fin d, v i ^ 2) :=
    Real.sum_mul_le_sqrt_mul_sqrt Finset.univ (fun i => -u i) v
  have e1 : ∑ i : Fin d, -u i * v i = -∑ i : Fin d, u i * v i := by
    rw [← Finset.sum_neg_distrib]
    exact Finset.sum_congr rfl (fun i _ => by ring)
  have e2 : ∑ i : Fin d, (-u i) ^ 2 = ∑ i : Fin d, u i * u i :=
    Finset.sum_congr rfl (fun i _ => by ring)
  have e3 : ∑ i : Fin d, u i ^ 2 = ∑ i : Fin d, u i * u i :=
    Finset.sum_congr rfl (fun i _ => by ring)
  have e4 : ∑ i : Fin d, v i ^ 2 = ∑ i : Fin d, v i * v i :=
    Finset.sum_congr rfl (fun i _ => by ring)
  rw [e3, e4] at hpos
  rw [e1, e2, e4] at hneg
  unfold vnorm dotp
  rw [abs_le]
  exact ⟨by linarith, hpos⟩

theorem abs_cosineSim_le_one {d : ℕ} (u v : Fin d → ℝ) :
    |cosineSim u v| ≤ 1 := by
  unfold cosineSim sklearnNorm
  by_cases hu : vnorm u = 0
  · rw [dotp_eq_zero_of_vnorm_eq_zero hu v]
    simp
  · by_cases hv : vnorm v = 0
    · rw [dotp_comm, dotp_eq_zero_of_vnorm_eq_zero hv u]
      simp
    · rw [if_neg hu, if_neg hv]
      have hup : 0 < vnorm u := lt_of_le_of_ne (vnorm_nonneg u) (Ne.symm hu)
      have hvp : 0 < vnorm v := lt_of_le_of_ne (vnorm_nonneg v) (Ne.symm hv)
      have hm : 0 < vnorm u * vnorm v := mul_pos hup hvp
      rw [abs_div, abs_of_pos hm, div_le_one hm]
      exact abs_dotp_le u v

theorem cosineSim_mem_Icc {d : ℕ} (u v : Fin d → ℝ) :
    -1 ≤ cosineSim u v ∧ cosineSim u v ≤ 1 :=
  abs_le.1 (abs_cosineSim_le_one u v)

/-- The similarity column computed for a model tag, embedding map and list
of word pairs: one cosine score per pair, in input order. -/
noncomputable def simColumn {d : ℕ}
    (embed : String × String → (Fin d → ℝ) × (Fin d → ℝ))
    (word_pairs : List (String × String)) : List ℝ :=
  (word_pairs.map embed).map (fun w => cosineSim w.1 w.2)

theorem gpes_extra_eq {d : ℕ} (mod : String)
    (embed : String × String → (Fin d → ℝ) × (Fin d → ℝ))
    (df : TermDF) (wp : List (String × String)) :
    (get_plain_embedding_similarity mod embed df wp).extra =
      dictInsert df.extra (mod ++ "_Cosine_Similarity") (simColumn embed wp) := rfl

/-- The conclusion of claim C2, as a predicate on the call's arguments:
the returned table keeps `Term1`, `Term2` and every pre-existing column
unchanged, gains exactly one new column named `mod + "_Cosine_Similarity"`
appended at the end, whose values are the cosine scores of the word pairs
in input order — as many values as word pairs, hence as many as table
rows — and every value lies in [-1, 1]. -/
def AddsSimilarityColumn {d : ℕ} (mod : String)
    (embed : String × String → (Fin d → ℝ) × (Fin d → ℝ))
    (df : TermDF) (wp : List (String × String)) : Prop :=
  (get_plain_embedding_similarity mod embed df wp).term1 = df.term1 ∧
  (get_plain_embedding_similarity mod embed df wp).term2 = df.term2 ∧
  (get_plain_embedding_similarity mod embed df wp).extra =
    df.extra ++ [(mod ++ "_Cosine_Similarity", simColumn embed wp)] ∧
  (simColumn embed wp).length = df.term1.length ∧
  (∀ x ∈ simColumn embed wp, -1 ≤ x ∧ x ≤ 1)

/-- C2: on a table without the tag's similarity column and a word-pair
list matching the table's row count, `get_plain_embedding_similarity`
appends exactly the one new column `mod + "_Cosine_Similarity"`, aligned
with the input order of the word pairs, all values in [-1, 1], leaving
every pre-existing column and the row count unchanged. -/
theorem gpes_adds_column {d : ℕ} (mod : String)
    (embed : String × String → (Fin d → ℝ) × (Fin d → ℝ))
    (df : TermDF) (wp : List (String × String))
    (hfresh : (mod ++ "_Cosine_Similarity") ∉ df.extra.map Prod.fst)
    (hrows : wp.length = df.term1.length) :
    AddsSimilarityColumn mod embed df wp := by
  refine ⟨rfl, rfl, ?_, ?_, ?_⟩
  · rw [gpes_extra_eq, dictInsert_of_not_mem _ _ _ hfresh]
  · unfold simColumn
    rw [List.length_map, List.length_map]
    exact hrows
  · intro x hx
    unfold simColumn at hx
    obtain ⟨w, _, rfl⟩ := List.mem_map.1 hx
    exact cosineSim_mem_Icc w.1 w.2

/-- Concrete one-dimensional embedding map used by the witnesses. -/
noncomputable def exampleEmbed : String × String → (Fin 1 → ℝ) × (Fin 1 → ℝ) :=
  fun _ => (fun _ => 1, fun _ => 1)

/-- Concrete one-row term-matching table without similarity columns. -/
def exampleDF : TermDF := ⟨["alpha"], ["beta"], []⟩

def examplePairs : List (String × String) := [("alpha", "beta")]

/-- Witness for C2 at a concrete table, embedding map and word-pair list. -/
theorem gpes_adds_column_witness :
    ("M" ++ "_Cosine_Similarity") ∉ exampleDF.extra.map Prod.fst ∧
    examplePairs.length = exampleDF.term1.length ∧
    AddsSimilarityColumn "M" exampleEmbed exampleDF examplePairs :=
  ⟨by decide, by decide,
    gpes_adds_column "M" exampleEmbed exampleDF examplePairs (by decide) (by decide)⟩

/-- The conclusion of claim C9, as a predicate on the call's arguments:
when the tag's similarity column is already present, the call changes that
column's values in place — same column-name list (so no second column is
added), `Term1`/`Term2` and every other column untouched, and the column
now holds the newly computed scores.  Since the embedding is a shallow
(state-passing) one, the in-place pandas mutation of the argument frame is
modelled by the returned frame being the input frame with exactly this one
column updated. -/
def OverwritesSimilarityColumn {d : ℕ} (mod : String)
    (embed : String × String → (Fin d → ℝ) × (Fin d → ℝ))
    (df : TermDF) (wp : List (String × String)) : Prop :=
  (get_plain_embedding_similarity mod embed df wp).term1 = df.term1 ∧
  (get_plain_embedding_similarity mod embed df wp).term2 = df.term2 ∧
  (get_plain_embedding_similarity mod embed df wp).extra.map Prod.fst =
    df.extra.map Prod.fst ∧
  dfLookup (get_plain_embedding_similarity mod embed df wp).extra
    (mod ++ "_Cosine_Similarity") = some (simColumn embed wp) ∧
  (∀ col ∈ df.extra, col.1 ≠ mod ++ "_Cosine_Similarity" →
    col ∈ (get_plain_embedding_similarity mod embed df wp).extra)

theorem dfLookup_dictInsert_of_mem {β : Type} (d : List (String × β)) (k : String)
    (v : β) (h : k ∈ d.map Prod.fst) : dfLookup (dictInsert d k v) k = some v := by
  unfold dictInsert
  rw [if_pos]
  · induction d with
    | nil => simp at h
    | cons p rest ih =>
        by_cases hp : p.1 = k
        · unfold dfLookup
          simp [hp]
        · have hk : k ∈ rest.map Prod.fst := by
            rcases List.mem_map.1 h with ⟨q, hq, hqk⟩
            rcases List.mem_cons.1 hq with rfl | hq'
            · exact absurd hqk hp
            · exact List.mem_map.2 ⟨q, hq', hqk⟩
          unfold dfLookup
          simp only [List.map_cons, if_neg hp]
          exact ih hk
  · simp only [List.any_eq_true, decide_eq_true_eq]
    rcases List.mem_map.1 h with ⟨q, hq, hqk⟩
    exact ⟨q, hq, hqk⟩

theorem mem_dictInsert_of_ne {β : Type} (d : List (String × β)) (k : String) (v : β)
    {col : String × β} (hcol : col ∈ d) (hne : col.1 ≠ k) :
    col ∈ dictInsert d k v := by
  unfold dictInsert
  by_cases hany : d.any (fun p => p.1 = k)
  · rw [if_pos hany]
    exact List.mem_map.2 ⟨col, hcol, by rw [if_neg hne]⟩
  · rw [if_neg hany]
    exact List.mem_append_left _ hcol

/-- C9: calling `get_plain_embedding_similarity` again with a tag whose
similarity column already exists overwrites that column in place rather
than adding a second one; every other column of the shared table is
untouched and the table carries the latest values. -/
theorem gpes_overwrites_column {d : ℕ} (mod : String)
    (embed : String × String → (Fin d → ℝ) × (Fin d → ℝ))
    (df : TermDF) (wp : List (String × String))
    (hmem : (mod ++ "_Cosine_Similarity") ∈ df.extra.map Prod.fst) :
    OverwritesSimilarityColumn mod embed df wp := by
  refine ⟨rfl, rfl, ?_, ?_, ?_⟩
  · rw [gpes_extra_eq]
    exact dictInsert_keys_of_mem _ _ _ hmem
  · rw [gpes_extra_eq]
    exact dfLookup_dictInsert_of_mem _ _ _ hmem
  · intro col hcol hne
    rw [gpes_extra_eq]
    exact mem_dictInsert_of_ne _ _ _ hcol hne

/-- Concrete table already holding an `M_Cosine_Similarity` column. -/
noncomputable def exampleDFwithCol : TermDF :=
  ⟨["alpha"], ["beta"], [("M_Cosine_Similarity", [0])]⟩

/-- Witness for C9: a second call with the same tag on a table already
holding the column. -/
theorem gpes_overwrites_column_witness :
    ("M" ++ "_Cosine_Similarity") ∈ exampleDFwithCol.extra.map Prod.fst ∧
    OverwritesSimilarityColumn "M" exampleEmbed exampleDFwithCol examplePairs :=
  ⟨by unfold exampleDFwithCol; decide,
    gpes_overwrites_column "M" exampleEmbed exampleDFwithCol examplePairs
      (by unfold exampleDFwithCol; decide)⟩

/-! ### TextPreprocessor: `preprocess` (src/utils.py lines 82-114)

The spaCy pipeline is external; a parsed document (tokens with lemma and
stop/punctuation/space flags, plus named entities) is the interface the
function consumes, so `nlp` is a parameter.  The abbreviation substitution
`text.replace('y/o', ' year old ')` is pure string code and is modelled
exactly (Python `str.replace`: every non-overlapping occurrence, scanning
left to right, case-sensitive). -/

/-- Python `str.replace` on one character list, with explicit fuel (each
step consumes at least one character, so `s.length` fuel is exact).  The
`pat = []` case of Python never arises in this code base. -/
def replaceAllFuel : ℕ → List Char → List Char → List Char → List Char
  | 0, s, _, _ => s
  | _ + 1, [], _, _ => []
  | fuel + 1, c :: rest, pat, rep =>
    if pat ≠ [] ∧ pat = (c :: rest).take pat.length then
      rep ++ replaceAllFuel fuel ((c :: rest).drop pat.length) pat rep
    else
      c :: replaceAllFuel fuel rest pat rep

/-- `s.replace(pat, rep)` for Python strings as character lists. -/
def replaceAll (s pat rep : List Char) : List Char :=
  replaceAllFuel s.length s pat rep

/-- Substring occurrence test (`pat in s` for Python strings). -/
def containsSub (s pat : List Char) : Bool :=
  (List.range (s.length + 1)).any (fun i => (s.drop i).take pat.length == pat)

theorem containsSub_iff (s pat : List Char) :
    containsSub s pat = true ↔
      ∃ i, i ≤ s.length ∧ (s.drop i).take pat.length = pat := by
  unfold containsSub
  rw [List.any_eq_true]
  constructor
  · rintro ⟨i, hi, heq⟩
    have hi' : i < s.length + 1 := List.mem_range.1 hi
    exact ⟨i, by omega, eq_of_beq heq⟩
  · rintro ⟨i, hi, heq⟩
    exact ⟨i, List.mem_range.2 (by omega), by rw [heq]; exact beq_self_eq_true pat⟩

/-- A string with no occurrence of the pattern is left unchanged: the
substitution is an exact, case-sensitive match and expands nothing else. -/
theorem replaceAll_no_occurrence (pat rep s : List Char)
    (h : containsSub s pat = false) : replaceAll s pat rep = s := by
  unfold replaceAll
  induction s with
  | nil => rfl
  | cons c rest ih =>
      have hnot : ¬ (pat ≠ [] ∧ pat = (c :: rest).take pat.length) := by
        rintro ⟨hne, heq⟩
        have hocc : containsSub (c :: rest) pat = true :=
          (containsSub_iff _ _).2 ⟨0, by omega, by
            rw [List.drop_zero]; exact heq.symm⟩
        rw [h] at hocc
        cases hocc
      have hrest : containsSub rest pat = false := by
        by_contra hne
        have hT : containsSub rest pat = true := by
          cases hcs : containsSub rest pat
          · exact absurd hcs hne
          · rfl
        obtain ⟨i, hi, heq⟩ := (containsSub_iff _ _).1 hT
        have : containsSub (c :: rest) pat = true :=
          (containsSub_iff _ _).2 ⟨i + 1, by simp; omega, by
            rwa [List.drop_succ_cons]⟩
        rw [h] at this
        cases this
      show replaceAllFuel (rest.length + 1) (c :: rest) pat rep = c :: rest
      rw [replaceAllFuel, if_neg hnot]
      rw [ih hrest]

/-- One spaCy token: its lemma and the flags the loop consults. -/
structure SpacyTok where
  lem : List Char
  is_stop : Bool
  is_punct : Bool
  is_space : Bool

/-- One spaCy named entity: its lemma and entity label. -/
structure SpacyEnt where
  lem : List Char
  label : List Char

/-- A parsed spaCy document. -/
structure SpacyDoc where
  tokens : List SpacyTok
  ents : List SpacyEnt

/-- Python `str.strip()`: drop leading and trailing whitespace. -/
def stripChars (l : List Char) : List Char :=
  ((l.dropWhile Char.isWhitespace).reverse.dropWhile Char.isWhitespace).reverse

/-- `str(token.lemma_).strip().lower()` — the text the length guard of the
comprehension tests. -/
def lowerStrip (l : List Char) : List Char :=
  (stripChars l).map Char.toLower

/-- `str(token.lemma_).strip().lower().replace(',','')` — the text kept
for a surviving token. -/
def normLemma (l : List Char) : List Char :=
  (lowerStrip l).filter (fun ch => ch != ',')

/-- The comprehension filter: not a stop word, not punctuation, not
whitespace, and a non-empty stripped lowercase lemma. -/
def keepTok (t : SpacyTok) : Bool :=
  !t.is_stop && !t.is_punct && !t.is_space && !(lowerStrip t.lem).isEmpty

/-- `" ".join(words)`. -/
def joinSpaces : List (List Char) → List Char
  | [] => []
  | [w] => w
  | w :: ws => w ++ ' ' :: joinSpaces ws

/-- Model of `preprocess` (src/utils.py lines 82-114): extract entities
from the raw text, substitute `"y/o"` by `" year old "`, re-parse, build
the normalized text from the surviving lemmas joined by single spaces, and
return (raw entities, normalized text, entities of the re-parsed text). -/
def preprocess (nlp : List Char → SpacyDoc) (text : List Char) :
    List (List Char × List Char) × List Char × List (List Char × List Char) :=
  let doc_raw := nlp text
  let ner_raw := doc_raw.ents.map (fun e => (e.lem, e.label))
  let text1 := replaceAll text "y/o".toList " year old ".toList
  let doc := nlp text1
  let text2 := joinSpaces ((doc.tokens.filter keepTok).map (fun t => normLemma t.lem))
  let ner_preprocess := doc.ents.map (fun e => (e.lem, e.label))
  (ner_raw, text2, ner_preprocess)

/-- The example input of the spec: `"Patient is 45 y/o male"`. -/
def exText : List Char := "Patient is 45 y/o male".toList

/-- Its substituted form: `"Patient is 45  year old  male"`. -/
def exSub : List Char := "Patient is 45  year old  male".toList

/-- The spaCy parse of the substituted example sentence (the external
pipeline's output recorded as data: `is` lemmatises to the stop word `be`,
the content words keep their lowercase lemmas). -/
def exDoc : SpacyDoc :=
  ⟨[⟨"patient".toList, false, false, false⟩,
    ⟨"be".toList, true, false, false⟩,
    ⟨"45".toList, false, false, false⟩,
    ⟨"year".toList, false, false, false⟩,
    ⟨"old".toList, false, false, false⟩,
    ⟨"male".toList, false, false, false⟩],
   [⟨"45".toList, "CARDINAL".toList⟩]⟩

/-- The normalized text `preprocess` produces for the example. -/
def exNorm : List Char := "patient 45 year old male".toList

/-- C7: `preprocess` replaces every exact, case-sensitive occurrence of
`"y/o"` by `" year old "` before normalization and expands no other
abbreviation (a text without `"y/o"` passes through the substitution
unchanged); on `"Patient is 45 y/o male"` the substituted text, and the
normalized output under the recorded spaCy parse, contain the `"year old"`
tokens and no literal `"y/o"`. -/
theorem preprocess_yo_substitution (nlp : List Char → SpacyDoc) (text : List Char)
    (hnlp : nlp exSub = exDoc) :
    replaceAll exText "y/o".toList " year old ".toList = exSub ∧
    containsSub exSub " year old ".toList = true ∧
    containsSub exSub "y/o".toList = false ∧
    (containsSub text "y/o".toList = false →
      replaceAll text "y/o".toList " year old ".toList = text) ∧
    (preprocess nlp exText).2.1 = exNorm ∧
    containsSub exNorm "year old".toList = true ∧
    containsSub exNorm "y/o".toList = false := by
  refine ⟨by decide, by decide, by decide,
    replaceAll_no_occurrence "y/o".toList " year old ".toList text, ?_,
    by decide, by decide⟩
  show joinSpaces
      (((nlp (replaceAll exText "y/o".toList " year old ".toList)).tokens.filter
        keepTok).map (fun t => normLemma t.lem)) = exNorm
  have hsub : replaceAll exText "y/o".toList " year old ".toList = exSub := by decide
  rw [hsub, hnlp]
  decide

/-- A concrete external pipeline: parses the substituted example sentence
as recorded, anything else as an empty document. -/
def exNlp : List Char → SpacyDoc :=
  fun s => if s = exSub then exDoc else ⟨[], []⟩

/-- Witness for C7: the recorded parse satisfies the hypothesis; the
substitution leaves the upper-case text `"Y/O status"` unchanged and the
example's normalized output is `"patient 45 year old male"`. -/
theorem preprocess_yo_substitution_witness :
    exNlp exSub = exDoc ∧
    replaceAll "Y/O status".toList "y/o".toList " year old ".toList =
      "Y/O status".toList ∧
    (preprocess exNlp exText).2.1 = exNorm :=
  ⟨by unfold exNlp; rw [if_pos rfl],
    (preprocess_yo_substitution exNlp "Y/O status".toList
      (by unfold exNlp; rw [if_pos rfl])).2.2.2.1 (by decide),
    (preprocess_yo_substitution exNlp "Y/O status".toList
      (by unfold exNlp; rw [if_pos rfl])).2.2.2.2.1⟩

/-! ### PerformanceReporter: `get_score` (src/utils.py lines 332-345)

`get_score` delegates to sklearn's `accuracy_score`, `precision_score`,
`recall_score` and `f1_score` with `average='weighted'`.  Those metrics
are implemented here over exact rationals, following sklearn's
definitions: per-class precision `tp/pred_c` (0 when the denominator is
0), recall `tp/support_c`, F1 the harmonic mean of the two (0 when both
are 0), weighted over the sorted set of labels occurring in either vector
with the true-label supports as weights.  Python's 3-decimal `round`
(banker's rounding) is modelled exactly on rationals. -/

/-- True positives of class `c`: positions where ground truth and
prediction both equal `c`. -/
def tpCount (y p : List ℤ) (c : ℤ) : ℕ :=
  ((y.zip p).filter (fun q => q.1 == c && q.2 == c)).length

/-- sklearn `accuracy_score`: fraction of positions that match. -/
def accuracy_score (y p : List ℤ) : ℚ :=
  (((y.zip p).filter (fun q => q.1 == q.2)).length : ℚ) / (y.length : ℚ)

/-- Per-class precision with sklearn's zero-division convention. -/
def precC (y p : List ℤ) (c : ℤ) : ℚ :=
  if p.count c = 0 then 0 else (tpCount y p c : ℚ) / (p.count c : ℚ)

/-- Per-class recall with sklearn's zero-division convention. -/
def recC (y p : List ℤ) (c : ℤ) : ℚ :=
  if y.count c = 0 then 0 else (tpCount y p c : ℚ) / (y.count c : ℚ)

/-- Per-class F1: harmonic mean of precision and recall. -/
def f1C (y p : List ℤ) (c : ℤ) : ℚ :=
  if precC y p c + recC y p c = 0 then 0
  else 2 * precC y p c * recC y p c / (precC y p c + recC y p c)

/-- The set of labels present in either vector (sklearn's default label
set for the averaged scores). -/
def labelSet (y p : List ℤ) : Finset ℤ := (y ++ p).toFinset

/-- Sum of the weights (true-label supports) used by `np.average`. -/
def supportSum (y p : List ℤ) : ℚ := ∑ c ∈ labelSet y p, (y.count c : ℚ)

/-- `average='weighted'`: support-weighted mean of a per-class metric. -/
def weightedAvg (y p : List ℤ) (f : ℤ → ℚ) : ℚ :=
  (∑ c ∈ labelSet y p, (y.count c : ℚ) * f c) / supportSum y p

def precision_score (y p : List ℤ) : ℚ := weightedAvg y p (precC y p)

def recall_score (y p : List ℤ) : ℚ := weightedAvg y p (recC y p)

def f1_score (y p : List ℤ) : ℚ := weightedAvg y p (f1C y p)

/-- Python `round` to an integer: round half to even. -/
def pyRound (q : ℚ) : ℤ :=
  if q - ⌊q⌋ < 1/2 then ⌊q⌋
  else if 1/2 < q - ⌊q⌋ then ⌊q⌋ + 1
  else if ⌊q⌋ % 2 = 0 then ⌊q⌋ else ⌊q⌋ + 1

/-- Python `round(q, 3)`. -/
def round3 (q : ℚ) : ℚ := (pyRound (q * 1000) : ℚ) / 1000

/-- Model of `get_score` (src/utils.py lines 332-345): the single result
row, columns in source order, each metric as a percentage rounded to three
decimals. -/
def get_score (y p : List ℤ) : List (String × ℚ) :=
  [("Accuracy", round3 (accuracy_score y p * 100)),
   ("Precision", round3 (precision_score y p * 100)),
   ("Recall", round3 (recall_score y p * 100)),
   ("F1-Score", round3 (f1_score y p * 100))]

theorem pyRound_nonneg {q : ℚ} (h : 0 ≤ q) : 0 ≤ pyRound q := by
  have hf : (0 : ℤ) ≤ ⌊q⌋ := Int.floor_nonneg.2 h
  unfold pyRound
  split
  · exact hf
  · split
    · omega
    · split
      · exact hf
      · omega

theorem pyRound_le {q : ℚ} {B : ℤ} (h : q ≤ (B : ℚ)) : pyRound q ≤ B := by
  have hfB : ⌊q⌋ ≤ B := by
    have := Int.floor_le_floor h
    rwa [Int.floor_intCast] at this
  have hfle : (⌊q⌋ : ℚ) ≤ q := Int.floor_le q
  unfold pyRound
  by_cases h1 : q - ⌊q⌋ < 1/2
  · rw [if_pos h1]
    exact hfB
  · rw [if_neg h1]
    have hge : (1 : ℚ) / 2 ≤ q - ⌊q⌋ := not_lt.1 h1
    have hflt : ⌊q⌋ < B := by
      by_contra hc
      have hEq : ⌊q⌋ = B := le_antisymm hfB (not_lt.1 hc)
      rw [hEq] at hge
      linarith
    by_cases h2 : (1 : ℚ) / 2 < q - ⌊q⌋
    · rw [if_pos h2]
      omega
    · rw [if_neg h2]
      by_cases h3 : ⌊q⌋ % 2 = 0
      · rw [if_pos h3]
        exact hfB
      · rw [if_neg h3]
        omega

theorem round3_bounds {q : ℚ} (h0 : 0 ≤ q) (h1 : q ≤ 100) :
    0 ≤ round3 q ∧ round3 q ≤ 100 := by
  have hn : 0 ≤ pyRound (q * 1000) := pyRound_nonneg (by linarith)
  have hu : pyRound (q * 1000) ≤ 100000 :=
    pyRound_le (by push_cast; linarith)
  unfold round3
  constructor
  · apply div_nonneg _ (by norm_num)
    exact_mod_cast hn
  · rw [div_le_iff₀ (by norm_num : (0:ℚ) < 1000)]
    calc ((pyRound (q * 1000) : ℚ)) ≤ 100000 := by exact_mod_cast hu
    _ = 100 * 1000 := by norm_num

theorem pyRound_intCast (n : ℤ) : pyRound ((n : ℚ)) = n := by
  unfold pyRound
  rw [Int.floor_intCast, sub_self, if_pos (by norm_num : (0 : ℚ) < 1/2)]

theorem round3_hundred : round3 100 = 100 := by
  unfold round3
  have h : (100 : ℚ) * 1000 = ((100000 : ℤ) : ℚ) := by norm_num
  rw [h, pyRound_intCast]
  norm_num

theorem length_filter_mono {β : Type} {l : List β} {f g : β → Bool}
    (h : ∀ x, f x = true → g x = true) :
    (l.filter f).length ≤ (l.filter g).length := by
  induction l with
  | nil => simp
  | cons a l ih =>
      rw [List.filter_cons, List.filter_cons]
      by_cases hf : f a = true
      · rw [if_pos hf, if_pos (h a hf)]
        simpa using ih
      · rw [if_neg hf]
        by_cases hg : g a = true
        · rw [if_pos hg]
          exact le_trans ih (by simp)
        · rw [if_neg hg]
          exact ih

theorem zip_snd_count (c : ℤ) : ∀ (y p : List ℤ), y.length = p.length →
    ((y.zip p).filter (fun q => q.2 == c)).length = p.count c := by
  intro y
  induction y with
  | nil =>
      intro p h
      cases p with
      | nil => simp
      | cons b p => simp at h
  | cons a y ih =>
      intro p h
      cases p with
      | nil => simp at h
      | cons b p =>
          have h' : y.length = p.length := by simpa using h
          rw [List.zip_cons_cons, List.filter_cons, List.count_cons]
          by_cases hbc : b = c
          · subst hbc
            simp [ih p h']
          · have hbeq : ((a, b).2 == c) = false := by
              simpa using hbc
            rw [hbeq]
            simp [ih p h', hbc]

theorem zip_fst_count (c : ℤ) : ∀ (y p : List ℤ), y.length = p.length →
    ((y.zip p).filter (fun q => q.1 == c)).length = y.count c := by
  intro y
  induction y with
  | nil =>
      intro p h
      cases p with
      | nil => simp
      | cons b p => simp at h
  | cons a y ih =>
      intro p h
      cases p with
      | nil => simp at h
      | cons b p =>
          have h' : y.length = p.length := by simpa using h
          rw [List.zip_cons_cons, List.filter_cons, List.count_cons]
          by_cases hac : a = c
          · subst hac
            simp [ih p h']
          · have haeq : ((a, b).1 == c) = false := by
              simpa using hac
            rw [haeq]
            simp [ih p h', hac]

theorem tpCount_le_pred {y p : List ℤ} (hlen : y.length = p.length) (c : ℤ) :
    tpCount y p c ≤ p.count c := by
  unfold tpCount
  calc ((y.zip p).filter (fun q => q.1 == c && q.2 == c)).length
      ≤ ((y.zip p).filter (fun q => q.2 == c)).length :=
        length_filter_mono (fun x hx => by rw [Bool.and_eq_true] at hx; exact hx.2)
  _ = p.count c := zip_snd_count c y p hlen

theorem tpCount_le_true {y p : List ℤ} (hlen : y.length = p.length) (c : ℤ) :
    tpCount y p c ≤ y.count c := by
  unfold tpCount
  calc ((y.zip p).filter (fun q => q.1 == c && q.2 == c)).length
      ≤ ((y.zip p).filter (fun q => q.1 == c)).length :=
        length_filter_mono (fun x hx => by rw [Bool.and_eq_true] at hx; exact hx.1)
  _ = y.count c := zip_fst_count c y p hlen

theorem accuracy_score_bounds {y p : List ℤ} (hlen : y.length = p.length)
    (hne : y ≠ []) : 0 ≤ accuracy_score y p ∧ accuracy_score y p ≤ 1 := by
  unfold accuracy_score
  have hnpos : (0 : ℚ) < (y.length : ℚ) := by
    have := List.length_pos.2 hne
    exact_mod_cast this
  constructor
  · exact div_nonneg (Nat.cast_nonneg _) (le_of_lt hnpos)
  · rw [div_le_one hnpos]
    have hle : ((y.zip p).filter (fun q => q.1 == q.2)).length ≤ y.length := by
      calc ((y.zip p).filter (fun q => q.1 == q.2)).length
          ≤ (y.zip p).length := List.length_filter_le _ _
      _ = min y.length p.length := List.length_zip ..
      _ = y.length := by omega
    exact_mod_cast hle

theorem precC_bounds {y p : List ℤ} (hlen : y.length = p.length) (c : ℤ) :
    0 ≤ precC y p c ∧ precC y p c ≤ 1 := by
  unfold precC
  by_cases hz : p.count c = 0
  · simp [hz]
  · rw [if_neg hz]
    have hpos : (0 : ℚ) < (p.count c : ℚ) := by
      have := Nat.pos_of_ne_zero hz
      exact_mod_cast this
    refine ⟨div_nonneg (Nat.cast_nonneg _) (le_of_lt hpos), ?_⟩
    rw [div_le_one hpos]
    exact_mod_cast tpCount_le_pred hlen c

theorem recC_bounds {y p : List ℤ} (hlen : y.length = p.length) (c : ℤ) :
    0 ≤ recC y p c ∧ recC y p c ≤ 1 := by
  unfold recC
  by_cases hz : y.count c = 0
  · simp [hz]
  · rw [if_neg hz]
    have hpos : (0 : ℚ) < (y.count c : ℚ) := by
      have := Nat.pos_of_ne_zero hz
      exact_mod_cast this
    refine ⟨div_nonneg (Nat.cast_nonneg _) (le_of_lt hpos), ?_⟩
    rw [div_le_one hpos]
    exact_mod_cast tpCount_le_true hlen c

theorem f1C_bounds {y p : List ℤ} (hlen : y.length = p.length) (c : ℤ) :
    0 ≤ f1C y p c ∧ f1C y p c ≤ 1 := by
  obtain ⟨hp0, hp1⟩ := precC_bounds hlen c
  obtain ⟨hr0, hr1⟩ := recC_bounds hlen c
  unfold f1C
  by_cases hz : precC y p c + recC y p c = 0
  · simp [hz]
  · rw [if_neg hz]
    have hpos : 0 < precC y p c + recC y p c :=
      lt_of_le_of_ne (by linarith) (Ne.symm hz)
    constructor
    · exact div_nonneg (by nlinarith) (le_of_lt hpos)
    · rw [div_le_one hpos]
      nlinarith [mul_nonneg hp0 (by linarith : (0:ℚ) ≤ 1 - recC y p c),
        mul_nonneg hr0 (by linarith : (0:ℚ) ≤ 1 - precC y p c)]

theorem supportSum_eq (y p : List ℤ) : supportSum y p = (y.length : ℚ) := by
  unfold supportSum labelSet
  have hsub : y.toFinset ⊆ (y ++ p).toFinset := by
    intro c hc
    rw [List.mem_toFinset] at hc ⊢
    exact List.mem_append_left _ hc
  have hzero : ∀ c ∈ (y ++ p).toFinset, c ∉ y.toFinset → ((y.count c : ℚ)) = 0 := by
    intro c _ hnc
    have : y.count c = 0 :=
      List.count_eq_zero.2 (fun hmem => hnc (List.mem_toFinset.2 hmem))
    simp [this]
  rw [← Finset.sum_subset hsub hzero]
  have hsum : ∑ c ∈ y.toFinset, y.count c = y.length := by
    simp
  exact_mod_cast hsum

theorem weightedAvg_bounds {y p : List ℤ} (hne : y ≠ []) {f : ℤ → ℚ}
    (hf : ∀ c ∈ labelSet y p, 0 ≤ f c ∧ f c ≤ 1) :
    0 ≤ weightedAvg y p f ∧ weightedAvg y p f ≤ 1 := by
  unfold weightedAvg
  rw [supportSum_eq]
  have hnpos : (0 : ℚ) < (y.length : ℚ) := by
    have := List.length_pos.2 hne
    exact_mod_cast this
  constructor
  · apply div_nonneg _ (le_of_lt hnpos)
    exact Finset.sum_nonneg (fun c hc => mul_nonneg (Nat.cast_nonneg _) (hf c hc).1)
  · rw [div_le_one hnpos]
    calc ∑ c ∈ labelSet y p, (y.count c : ℚ) * f c
        ≤ ∑ c ∈ labelSet y p, (y.count c : ℚ) * 1 :=
          Finset.sum_le_sum
            (fun c hc => mul_le_mul_of_nonneg_left (hf c hc).2 (Nat.cast_nonneg _))
    _ = supportSum y p := by
          unfold supportSum labelSet
          exact Finset.sum_congr rfl (fun c _ => mul_one _)
    _ = (y.length : ℚ) := supportSum_eq y p

theorem zip_self_filter_eq (y : List ℤ) :
    ((y.zip y).filter (fun q => q.1 == q.2)).length = y.length := by
  induction y with
  | nil => rfl
  | cons a y ih => simp [List.zip_cons_cons, List.filter_cons, ih]

theorem tpCount_self (y : List ℤ) (c : ℤ) : tpCount y y c = y.count c := by
  unfold tpCount
  induction y with
  | nil => rfl
  | cons a y ih =>
      rw [List.zip_cons_cons, List.filter_cons, List.count_cons]
      by_cases hac : a = c
      · subst hac
        simp [ih]
      · have haeq : ((a, a).1 == c && (a, a).2 == c) = false := by
          simpa using fun h => absurd h hac
        rw [haeq]
        simp [ih, hac]

theorem mem_of_mem_labelSet_self {y : List ℤ} {c : ℤ} (hc : c ∈ labelSet y y) :
    c ∈ y := by
  unfold labelSet at hc
  rw [List.mem_toFinset, List.mem_append] at hc
  exact hc.elim id id

theorem count_cast_pos {y : List ℤ} {c : ℤ} (hcy : c ∈ y) : y.count c ≠ 0 :=
  Nat.pos_iff_ne_zero.1 (List.count_pos_iff.2 hcy)

theorem accuracy_score_self {y : List ℤ} (hne : y ≠ []) :
    accuracy_score y y = 1 := by
  unfold accuracy_score
  rw [zip_self_filter_eq]
  apply div_self
  have := List.length_pos.2 hne
  exact_mod_cast Nat.pos_iff_ne_zero.1 this

theorem precC_self {y : List ℤ} {c : ℤ} (hc : c ∈ labelSet y y) :
    precC y y c = 1 := by
  have hcount := count_cast_pos (mem_of_mem_labelSet_self hc)
  unfold precC
  rw [if_neg hcount, tpCount_self]
  apply div_self
  exact_mod_cast hcount

theorem recC_self {y : List ℤ} {c : ℤ} (hc : c ∈ labelSet y y) :
    recC y y c = 1 := by
  have hcount := count_cast_pos (mem_of_mem_labelSet_self hc)
  unfold recC
  rw [if_neg hcount, tpCount_self]
  apply div_self
  exact_mod_cast hcount

theorem f1C_self {y : List ℤ} {c : ℤ} (hc : c ∈ labelSet y y) :
    f1C y y c = 1 := by
  unfold f1C
  rw [precC_self hc, recC_self hc]
  norm_num

theorem weightedAvg_one {y p : List ℤ} (hne : y ≠ []) {f : ℤ → ℚ}
    (hf : ∀ c ∈ labelSet y p, f c = 1) : weightedAvg y p f = 1 := by
  unfold weightedAvg
  have hnum : ∑ c ∈ labelSet y p, (y.count c : ℚ) * f c = supportSum y p := by
    unfold supportSum
    exact Finset.sum_congr rfl (fun c hc => by rw [hf c hc, mul_one])
  rw [hnum, supportSum_eq]
  apply div_self
  have := List.length_pos.2 hne
  exact_mod_cast Nat.pos_iff_ne_zero.1 this

/-- C3 (amended: the vectors must be non-empty — see the counterexample
below, the claim fails at the empty pair): for equal-length non-empty
label vectors, `get_score` returns one row whose columns are exactly
Accuracy, Precision, Recall, F1-Score in source order, each value in
[0, 100] after 3-decimal rounding, and a perfect prediction scores 100.0
everywhere. -/
theorem get_score_spec (y p : List ℤ) (hlen : y.length = p.length) (hne : y ≠ []) :
    (get_score y p).map Prod.fst = ["Accuracy", "Precision", "Recall", "F1-Score"] ∧
    (∀ s ∈ get_score y p, 0 ≤ s.2 ∧ s.2 ≤ 100) ∧
    (p = y → ∀ s ∈ get_score y p, s.2 = (100 : ℚ)) := by
  refine ⟨rfl, ?_, ?_⟩
  · have hacc := accuracy_score_bounds hlen hne
    have hprec : 0 ≤ precision_score y p ∧ precision_score y p ≤ 1 :=
      @weightedAvg_bounds y p hne (precC y p) (fun c _ => precC_bounds hlen c)
    have hrec : 0 ≤ recall_score y p ∧ recall_score y p ≤ 1 :=
      @weightedAvg_bounds y p hne (recC y p) (fun c _ => recC_bounds hlen c)
    have hf1 : 0 ≤ f1_score y p ∧ f1_score y p ≤ 1 :=
      @weightedAvg_bounds y p hne (f1C y p) (fun c _ => f1C_bounds hlen c)
    intro s hs
    unfold get_score at hs
    simp only [List.mem_cons, List.not_mem_nil, or_false] at hs
    rcases hs with rfl | rfl | rfl | rfl
    · exact round3_bounds (by linarith [hacc.1]) (by linarith [hacc.2])
    · exact round3_bounds (by linarith [hprec.1]) (by linarith [hprec.2])
    · exact round3_bounds (by linarith [hrec.1]) (by linarith [hrec.2])
    · exact round3_bounds (by linarith [hf1.1]) (by linarith [hf1.2])
  · intro hpy
    subst hpy
    have ha : accuracy_score p p = 1 := accuracy_score_self hne
    have hp : precision_score p p = 1 :=
      weightedAvg_one hne (fun c hc => precC_self hc)
    have hr : recall_score p p = 1 :=
      weightedAvg_one hne (fun c hc => recC_self hc)
    have hf : f1_score p p = 1 :=
      weightedAvg_one hne (fun c hc => f1C_self hc)
    intro s hs
    unfold get_score at hs
    simp only [List.mem_cons, List.not_mem_nil, or_false] at hs
    rcases hs with rfl | rfl | rfl | rfl
    · show round3 (accuracy_score p p * 100) = 100
      rw [ha, one_mul, round3_hundred]
    · show round3 (precision_score p p * 100) = 100
      rw [hp, one_mul, round3_hundred]
    · show round3 (recall_score p p * 100) = 100
      rw [hr, one_mul, round3_hundred]
    · show round3 (f1_score p p * 100) = 100
      rw [hf, one_mul, round3_hundred]

/-- Witness for C3 at concrete vectors (a perfect two-class prediction). -/
theorem get_score_spec_witness :
    ([0, 1, 1] : List ℤ).length = ([0, 1, 1] : List ℤ).length ∧
    ([0, 1, 1] : List ℤ) ≠ [] ∧
    ((get_score [0, 1, 1] [0, 1, 1]).map Prod.fst =
        ["Accuracy", "Precision", "Recall", "F1-Score"] ∧
      (∀ s ∈ get_score [0, 1, 1] [0, 1, 1], 0 ≤ s.2 ∧ s.2 ≤ 100) ∧
      (([0, 1, 1] : List ℤ) = [0, 1, 1] →
        ∀ s ∈ get_score [0, 1, 1] [0, 1, 1], s.2 = (100 : ℚ))) :=
  ⟨rfl, by decide, get_score_spec [0, 1, 1] [0, 1, 1] rfl (by decide)⟩

theorem round3_zero : round3 0 = 0 := by
  unfold round3
  have h : (0 : ℚ) * 1000 = ((0 : ℤ) : ℚ) := by norm_num
  rw [h, pyRound_intCast]
  norm_num

/-- Counterexample for C3 as stated over all equal-length label vectors:
at the empty pair the prediction trivially equals the ground truth, yet
the Accuracy entry of `get_score` is 0, not 100 — the match-count and
support divisions are 0/0 there (the real code takes the mean of an empty
array with warnings suppressed, yielding NaN, so none of the four values
is 100.0 on the empty input either).  The claim therefore needs the
vectors to be non-empty. -/
theorem get_score_empty_counterexample :
    ([] : List ℤ).length = ([] : List ℤ).length ∧
    (([] : List ℤ) = ([] : List ℤ)) ∧
    ∃ s ∈ get_score ([] : List ℤ) ([] : List ℤ), s.2 ≠ (100 : ℚ) := by
  refine ⟨rfl, rfl,
    ("Accuracy", round3 (accuracy_score ([] : List ℤ) ([] : List ℤ) * 100)), ?_, ?_⟩
  · unfold get_score
    exact List.mem_cons_self _ _
  · have h0 : accuracy_score ([] : List ℤ) ([] : List ℤ) = 0 := by
      unfold accuracy_score
      simp
    show round3 (accuracy_score ([] : List ℤ) ([] : List ℤ) * 100) ≠ 100
    rw [h0, zero_mul, round3_zero]
    norm_num

/-! ### FineTuner model-family branch (src/utils.py lines 258-278)

`fine_tune` prepares its data loaders, epoch count and model surgery
depending on the model tag: the `'BioGPT'` branch resizes the token
embeddings to `len(tokenizer)`, replaces `lm_head` by
`torch.nn.Linear(hidden_size, len(label_dict.keys()))`, and uses batch
size 2 for 10 epochs; every other tag uses batch size 8 for 5 epochs with
no surgery.  The branch outcome is captured as a configuration record. -/

/-- The observable training configuration chosen by `fine_tune`'s branch:
batch size, epoch count, the vocabulary size the token embedding table is
resized to (if any), and the (in_features, out_features) of the fresh
`lm_head` linear layer (if any). -/
structure TrainConfig where
  batch_size : ℕ
  num_epochs : ℕ
  resized_vocab : Option ℕ
  new_head : Option (ℕ × ℕ)
  deriving DecidableEq

/-- Model of the branch at src/utils.py lines 264-278. -/
def fine_tune_config (mod : String) (tokenizer_len hidden_size num_labels : ℕ) :
    TrainConfig :=
  if mod = "BioGPT" then
    ⟨2, 10, some tokenizer_len, some (hidden_size, num_labels)⟩
  else
    ⟨8, 5, none, none⟩

/-- C5: tag `"BioGPT"` trains with batch size 2 for 10 epochs after
resizing the token embeddings to the tokenizer's vocabulary size and
replacing the output head by a fresh linear layer sized to the number of
categories; every other tag trains with batch size 8 for 5 epochs with no
resize and no head replacement. -/
theorem fine_tune_config_spec (mod : String)
    (tokenizer_len hidden_size num_labels : ℕ) :
    (mod = "BioGPT" →
      fine_tune_config mod tokenizer_len hidden_size num_labels =
        ⟨2, 10, some tokenizer_len, some (hidden_size, num_labels)⟩) ∧
    (mod ≠ "BioGPT" →
      fine_tune_config mod tokenizer_len hidden_size num_labels =
        ⟨8, 5, none, none⟩) := by
  constructor
  · intro h
    unfold fine_tune_config
    rw [if_pos h]
  · intro h
    unfold fine_tune_config
    rw [if_neg h]

/-- Witness for C5 at the BioGPT tag and one ordinary tag. -/
theorem fine_tune_config_spec_witness :
    fine_tune_config "BioGPT" 42384 1024 3 = ⟨2, 10, some 42384, some (1024, 3)⟩ ∧
    fine_tune_config "ClinicalBERT" 42384 1024 3 = ⟨8, 5, none, none⟩ :=
  ⟨(fine_tune_config_spec "BioGPT" 42384 1024 3).1 rfl,
   (fine_tune_config_spec "ClinicalBERT" 42384 1024 3).2 (by decide)⟩

/-! ### ExplanationGenerator: `lime_prediction` (src/utils.py lines 421-475)

The function signature is
`def lime_prediction(..., label_dict_small, output_label = tuple(label_dict_small.values()), ...)`.
Python evaluates the default once, at function-definition time, against
the module-level `label_dict_small` defined on line 421 — not against the
parameter of the same name. -/

/-- The module-level `label_dict_small` dictionary (src/utils.py
line 421). -/
def label_dict_small : List (String × ℤ) :=
  [("Cardio/Pul", 0), ("Gastro", 1), ("Neuro", 2)]

/-- The default value of `lime_prediction`'s `output_label` parameter:
`tuple(label_dict_small.values())` evaluated at function-definition time
against the module-level dictionary. -/
def lime_default_output_label : List ℤ := label_dict_small.map Prod.snd

/-- The label tuple `lime_prediction` hands to `explain_instance` (and to
`show_in_notebook`): the explicit `output_label` argument if one is
passed, otherwise the definition-time default.  The dictionary passed as
the `label_dict_small` argument only supplies the class names. -/
def lime_output_label (label_dict_arg : List (String × ℤ))
    (output_label : Option (List ℤ)) : List ℤ :=
  output_label.getD lime_default_output_label

/-- C10: with no explicit `output_label` argument the labels explained are
`(0, 1, 2)` — the values of the module-level `label_dict_small` captured
at function-definition time — regardless of the `label_dict_small`
dictionary passed to the call. -/
theorem lime_output_label_default (label_dict_arg : List (String × ℤ)) :
    lime_output_label label_dict_arg none = [0, 1, 2] := rfl

/-! ### Orchestrator: `PerformanceMetrics` and `Analyze_models`
(src/utils.py lines 132-191 and 347-378)

`PerformanceMetrics` pairs the `get_score` row with
`classification_report(..., output_dict=True)` turned into a table;
the sklearn report (external library, modelled from its documented
output-dict) has one row per label — named positionally by
`target_names`, a `ValueError` when the counts differ — plus the
`accuracy`, `macro avg` and `weighted avg` rows.  `Analyze_models` loops
over the configured tags, computing the raw similarity column and two
fine-tuning passes per tag, and accumulates `{tag_Raw, tag_Preprocess}`
entries in the results dict.  Model loading and the training loop are
external: the held-out ground truth and predictions a fine-tuned model
produces for a (tag, text column) pair enter through the `evalOf` oracle,
the per-stage embedding maps through `embedOf`. -/

/-- One row of the classification-report table: precision, recall,
f1-score, support. -/
structure ReportRow where
  rprec : ℚ
  rrec : ℚ
  rf1 : ℚ
  rsupport : ℚ

/-- `numpy.unique` on the concatenated label vectors: sorted distinct
labels, sklearn's row order for the per-class metrics. -/
def sortedLabels (y p : List ℤ) : List ℤ :=
  List.insertionSort (· ≤ ·) (y ++ p).dedup

/-- The unweighted (`macro avg`) mean of a per-class metric. -/
def macroAvg (y p : List ℤ) (f : ℤ → ℚ) : ℚ :=
  ((sortedLabels y p).map f).sum / ((sortedLabels y p).length : ℚ)

/-- Model of sklearn's `classification_report(..., output_dict=True)`
followed by `pd.DataFrame(report).transpose()`: per-label rows named by
`target_names` (a `ValueError` when the label count differs from
`len(target_names)`), then the `accuracy` row (the scalar broadcast
across the columns by pandas), `macro avg` and `weighted avg`.  The rows
live in a Python dict, so a repeated name overwrites. -/
def classRowsOf (y p : List ℤ) (target_names : List String) :
    List (String × ReportRow) :=
  (target_names.zip (sortedLabels y p)).map
    (fun nc => (nc.1,
      (⟨precC y p nc.2, recC y p nc.2, f1C y p nc.2, (y.count nc.2 : ℚ)⟩ : ReportRow)))

/-- The `accuracy` row: pandas broadcasts the scalar across the columns. -/
def accuracyRow (y p : List ℤ) : ReportRow :=
  ⟨accuracy_score y p, accuracy_score y p, accuracy_score y p, accuracy_score y p⟩

def macroRow (y p : List ℤ) : ReportRow :=
  ⟨macroAvg y p (precC y p), macroAvg y p (recC y p), macroAvg y p (f1C y p),
    (y.length : ℚ)⟩

def weightedRow (y p : List ℤ) : ReportRow :=
  ⟨precision_score y p, recall_score y p, f1_score y p, (y.length : ℚ)⟩

def classification_report (y p : List ℤ) (target_names : List String) :
    Except String (List (String × ReportRow)) :=
  if (sortedLabels y p).length = target_names.length then
    Except.ok (dictInsert (dictInsert (dictInsert
      ((classRowsOf y p target_names).foldl (fun d r => dictInsert d r.1 r.2) [])
      "accuracy" (accuracyRow y p)) "macro avg" (macroRow y p))
      "weighted avg" (weightedRow y p))
  else
    Except.error "Number of classes does not match size of target_names"

/-- Model of `PerformanceMetrics` (src/utils.py lines 347-378): the 1-row
scores table and the report table (the confusion-matrix heatmap is a
filesystem side effect outside the model). -/
def PerformanceMetrics (y p : List ℤ) (label_keys : List String) :
    Except String (List (String × ℚ) × List (String × ReportRow)) :=
  (classification_report y p label_keys).map (fun rep => (get_score y p, rep))

theorem append_cancel_str {s t u : String} (h : s ++ u = t ++ u) : s = t := by
  apply String.ext
  have hd : s.data ++ u.data = t.data ++ u.data := by
    rw [← String.data_append, ← String.data_append, h]
  exact List.append_cancel_right hd

theorem raw_ne_preprocess (s t : String) : s ++ "_Raw" ≠ t ++ "_Preprocess" := by
  intro h
  have hd : s.data ++ "_Raw".data = t.data ++ "_Preprocess".data := by
    rw [← String.data_append, ← String.data_append, h]
  have h1 : (s.data ++ "_Raw".data).getLast? = some 'w' := by
    rw [List.getLast?_append_of_ne_nil s.data (by decide)]
    decide
  have h2 : (t.data ++ "_Preprocess".data).getLast? = some 's' := by
    rw [List.getLast?_append_of_ne_nil t.data (by decide)]
    decide
  rw [hd, h2] at h1
  exact absurd h1 (by decide)

theorem foldl_dictInsert_fresh {β : Type} :
    ∀ (rows : List (String × β)) (d : List (String × β)),
      (∀ r ∈ rows, r.1 ∉ d.map Prod.fst) → (rows.map Prod.fst).Nodup →
      rows.foldl (fun d r => dictInsert d r.1 r.2) d = d ++ rows := by
  intro rows
  induction rows with
  | nil =>
      intro d _ _
      simp
  | cons r rs ih =>
      intro d hfresh hnodup
      have hnodup' : r.1 ∉ rs.map Prod.fst ∧ (rs.map Prod.fst).Nodup := by
        rw [List.map_cons, List.nodup_cons] at hnodup
        exact hnodup
      rw [List.foldl_cons,
        dictInsert_of_not_mem _ _ _ (hfresh r (List.mem_cons_self r rs)),
        ih (d ++ [r]) ?_ hnodup'.2]
      · simp
      · intro q hq
        rw [List.map_append, List.mem_append]
        rintro (hqd | hqr)
        · exact hfresh q (List.mem_cons_of_mem r hq) hqd
        · have hq1 : q.1 = r.1 := by simpa using hqr
          exact hnodup'.1 (hq1 ▸ List.mem_map.2 ⟨q, hq, rfl⟩)

theorem dictInsert_keys_of_not_mem {β : Type} (d : List (String × β)) (k : String)
    (v : β) (h : k ∉ d.map Prod.fst) :
    (dictInsert d k v).map Prod.fst = d.map Prod.fst ++ [k] := by
  rw [dictInsert_of_not_mem d k v h, List.map_append]
  rfl

theorem classification_report_shape (y p : List ℤ) (tn : List String)
    (hlen : (sortedLabels y p).length = tn.length)
    (hkeys : (tn ++ ["accuracy", "macro avg", "weighted avg"]).Nodup) :
    ∃ rep, classification_report y p tn = Except.ok rep ∧
      rep.map Prod.fst = tn ++ ["accuracy", "macro avg", "weighted avg"] ∧
      rep.length = tn.length + 3 := by
  obtain ⟨htnN, hsumN, hdisj⟩ := List.nodup_append.1 hkeys
  have hacc_tn : "accuracy" ∉ tn := fun hmem => hdisj hmem (by decide)
  have hmac_tn : "macro avg" ∉ tn := fun hmem => hdisj hmem (by decide)
  have hwav_tn : "weighted avg" ∉ tn := fun hmem => hdisj hmem (by decide)
  have hmac_acc : ("macro avg" : String) ≠ "accuracy" := by decide
  have hwav_acc : ("weighted avg" : String) ≠ "accuracy" := by decide
  have hwav_mac : ("weighted avg" : String) ≠ "macro avg" := by decide
  have hkeys0 : (classRowsOf y p tn).map Prod.fst = tn := by
    unfold classRowsOf
    rw [List.map_map]
    have hcomp : (Prod.fst ∘ fun nc : String × ℤ => (nc.1,
        (⟨precC y p nc.2, recC y p nc.2, f1C y p nc.2, (y.count nc.2 : ℚ)⟩ : ReportRow)))
        = Prod.fst := rfl
    rw [hcomp]
    exact List.map_fst_zip tn (sortedLabels y p) (le_of_eq hlen.symm)
  have hd0 : (classRowsOf y p tn).foldl (fun d r => dictInsert d r.1 r.2) [] =
      classRowsOf y p tn := by
    rw [foldl_dictInsert_fresh (classRowsOf y p tn) [] (fun r _ => by simp)
      (by rw [hkeys0]; exact htnN)]
    simp
  have k1 : (dictInsert (classRowsOf y p tn) "accuracy" (accuracyRow y p)).map Prod.fst
      = tn ++ ["accuracy"] := by
    rw [dictInsert_keys_of_not_mem _ _ _ (by rw [hkeys0]; exact hacc_tn), hkeys0]
  have k2 : (dictInsert (dictInsert (classRowsOf y p tn) "accuracy" (accuracyRow y p))
        "macro avg" (macroRow y p)).map Prod.fst
      = (tn ++ ["accuracy"]) ++ ["macro avg"] := by
    rw [dictInsert_keys_of_not_mem _ _ _ ?_, k1]
    rw [k1]
    intro hmem
    rcases List.mem_append.1 hmem with h | h
    · exact hmac_tn h
    · exact hmac_acc (List.mem_singleton.1 h)
  have k3 : (dictInsert (dictInsert (dictInsert (classRowsOf y p tn) "accuracy"
        (accuracyRow y p)) "macro avg" (macroRow y p)) "weighted avg"
        (weightedRow y p)).map Prod.fst
      = ((tn ++ ["accuracy"]) ++ ["macro avg"]) ++ ["weighted avg"] := by
    rw [dictInsert_keys_of_not_mem _ _ _ ?_, k2]
    rw [k2]
    intro hmem
    rcases List.mem_append.1 hmem with h | h
    · rcases List.mem_append.1 h with h2 | h2
      · exact hwav_tn h2
      · exact hwav_acc (List.mem_singleton.1 h2)
    · exact hwav_mac (List.mem_singleton.1 h)
  unfold classification_report
  rw [if_pos hlen, hd0]
  refine ⟨_, rfl, ?_, ?_⟩
  · rw [k3]
    simp [List.append_assoc]
  · rw [← List.length_map _ Prod.fst, k3]
    simp only [List.length_append, List.length_singleton]

/-- Model of `fine_tune`'s returned triple (src/utils.py lines 193-329):
the split, tokenization and training loop are external — the held-out
ground truth and the fine-tuned model's predictions for a (tag,
text-column) pair enter through the `evalOf` oracle — after which the
function computes `PerformanceMetrics` and refreshes the shared
term-matching table under tag `mod + "_fine_tune_" + type_data`. -/
noncomputable def fine_tune {d : ℕ} (mod : String)
    (evalOf : String → String → List ℤ × List ℤ)
    (embedOf : String → (String × String → (Fin d → ℝ) × (Fin d → ℝ)))
    (label_keys : List String) (type_data : String)
    (term_matching : TermDF) (word_pairs : List (String × String)) :
    Except String ((List (String × ℚ) × List (String × ReportRow)) × TermDF) :=
  (PerformanceMetrics (evalOf mod type_data).1 (evalOf mod type_data).2 label_keys).map
    (fun sr => (sr,
      get_plain_embedding_similarity (mod ++ "_fine_tune_" ++ type_data)
        (embedOf (mod ++ "_fine_tune_" ++ type_data)) term_matching word_pairs))

theorem fine_tune_ok {d : ℕ} (mod : String)
    (evalOf : String → String → List ℤ × List ℤ)
    (embedOf : String → (String × String → (Fin d → ℝ) × (Fin d → ℝ)))
    (label_keys : List String) (type_data : String)
    (term_matching : TermDF) (word_pairs : List (String × String))
    {rep : List (String × ReportRow)}
    (hrep : classification_report (evalOf mod type_data).1 (evalOf mod type_data).2
      label_keys = Except.ok rep) :
    fine_tune mod evalOf embedOf label_keys type_data term_matching word_pairs =
      Except.ok ((get_score (evalOf mod type_data).1 (evalOf mod type_data).2, rep),
        get_plain_embedding_similarity (mod ++ "_fine_tune_" ++ type_data)
          (embedOf (mod ++ "_fine_tune_" ++ type_data)) term_matching word_pairs) := by
  unfold fine_tune PerformanceMetrics
  rw [hrep]
  rfl

/-- One results-mapping entry: `{'Scores': ..., 'Report': ...}`. -/
abbrev SweepResult := List (String × ℚ) × List (String × ReportRow)

theorem except_bind_ok {ε α β : Type} (a : α) (f : α → Except ε β) :
    (Except.ok a : Except ε α).bind f = f a := rfl

/-- The loop body of `Analyze_models` (src/utils.py lines 148-191),
accumulator-passing: for each tag, compute the raw-model similarity
column on the shared table, fine-tune on `notes` and store the result
under `tag + "_Raw"`, reload a fresh model (external), fine-tune on
`notes_preprocess` and store under `tag + "_Preprocess"`.  Exceptions
from a pass propagate and abort the sweep. -/
noncomputable def Analyze_models_loop {d : ℕ}
    (evalOf : String → String → List ℤ × List ℤ)
    (embedOf : String → (String × String → (Fin d → ℝ) × (Fin d → ℝ)))
    (label_keys : List String) (word_pairs : List (String × String)) :
    List String → TermDF → List (String × SweepResult) →
    Except String (TermDF × List (String × SweepResult))
  | [], tm, acc => Except.ok (tm, acc)
  | mod :: rest, tm, acc =>
      (fine_tune mod evalOf embedOf label_keys "notes"
        (get_plain_embedding_similarity mod (embedOf mod) tm word_pairs)
        word_pairs).bind
        (fun r1 =>
          (fine_tune mod evalOf embedOf label_keys "notes_preprocess" r1.2
            word_pairs).bind
            (fun r2 =>
              Analyze_models_loop evalOf embedOf label_keys word_pairs rest r2.2
                (dictInsert (dictInsert acc (mod ++ "_Raw") r1.1)
                  (mod ++ "_Preprocess") r2.1)))

/-- Model of `Analyze_models` (src/utils.py lines 132-191): sweep the
configured tags sequentially, starting from an empty results dict;
returns the updated term-matching table and the results mapping (the
notes table passes through unchanged). -/
noncomputable def Analyze_models {d : ℕ}
    (evalOf : String → String → List ℤ × List ℤ)
    (embedOf : String → (String × String → (Fin d → ℝ) × (Fin d → ℝ)))
    (label_keys : List String) (word_pairs : List (String × String))
    (model_tags : List String) (term_matching : TermDF) :
    Except String (TermDF × List (String × SweepResult)) :=
  Analyze_models_loop evalOf embedOf label_keys word_pairs model_tags term_matching []

theorem Analyze_models_loop_spec {d : ℕ}
    (evalOf : String → String → List ℤ × List ℤ)
    (embedOf : String → (String × String → (Fin d → ℝ) × (Fin d → ℝ)))
    (label_keys : List String) (word_pairs : List (String × String))
    (hkeys : (label_keys ++ ["accuracy", "macro avg", "weighted avg"]).Nodup) :
    ∀ (tags : List String) (tm : TermDF) (acc : List (String × SweepResult)),
      tags.Nodup →
      (∀ mod ∈ tags, ∀ td ∈ (["notes", "notes_preprocess"] : List String),
        (sortedLabels (evalOf mod td).1 (evalOf mod td).2).length =
          label_keys.length) →
      (∀ mod ∈ tags, (mod ++ "_Raw") ∉ acc.map Prod.fst ∧
        (mod ++ "_Preprocess") ∉ acc.map Prod.fst) →
      (∀ e ∈ acc, e.2.1.map Prod.fst = ["Accuracy", "Precision", "Recall", "F1-Score"] ∧
        e.2.2.length = label_keys.length + 3) →
      ∃ tm2 res,
        Analyze_models_loop evalOf embedOf label_keys word_pairs tags tm acc =
          Except.ok (tm2, res) ∧
        res.map Prod.fst = acc.map Prod.fst ++
          tags.flatMap (fun m => [m ++ "_Raw", m ++ "_Preprocess"]) ∧
        (∀ e ∈ res, e.2.1.map Prod.fst = ["Accuracy", "Precision", "Recall", "F1-Score"] ∧
          e.2.2.length = label_keys.length + 3) := by
  intro tags
  induction tags with
  | nil =>
      intro tm acc _ _ _ hshape
      exact ⟨tm, acc, rfl, by simp, hshape⟩
  | cons mod rest ih =>
      intro tm acc hnodup hlab hfresh hshape
      have hmodmem : mod ∈ mod :: rest := List.mem_cons_self mod rest
      have hnodup' := List.nodup_cons.1 hnodup
      obtain ⟨rep1, hrep1, hrkeys1, hrlen1⟩ :=
        classification_report_shape (evalOf mod "notes").1 (evalOf mod "notes").2
          label_keys (hlab mod hmodmem "notes" (by simp)) hkeys
      obtain ⟨rep2, hrep2, hrkeys2, hrlen2⟩ :=
        classification_report_shape (evalOf mod "notes_preprocess").1
          (evalOf mod "notes_preprocess").2 label_keys
          (hlab mod hmodmem "notes_preprocess" (by simp)) hkeys
      have hft1 := fine_tune_ok mod evalOf embedOf label_keys "notes"
        (get_plain_embedding_similarity mod (embedOf mod) tm word_pairs)
        word_pairs hrep1
      have hfreshR := (hfresh mod hmodmem).1
      have hfreshP := (hfresh mod hmodmem).2
      have hacc1keys : (dictInsert acc (mod ++ "_Raw")
            ((get_score (evalOf mod "notes").1 (evalOf mod "notes").2, rep1) :
              SweepResult)).map Prod.fst
          = acc.map Prod.fst ++ [mod ++ "_Raw"] :=
        dictInsert_keys_of_not_mem _ _ _ hfreshR
      have hPnot1 : (mod ++ "_Preprocess") ∉ (dictInsert acc (mod ++ "_Raw")
            ((get_score (evalOf mod "notes").1 (evalOf mod "notes").2, rep1) :
              SweepResult)).map Prod.fst := by
        rw [hacc1keys]
        intro hmem
        rcases List.mem_append.1 hmem with h | h
        · exact hfreshP h
        · exact raw_ne_preprocess mod mod (List.mem_singleton.1 h).symm
      have hacc1eq : dictInsert acc (mod ++ "_Raw")
            ((get_score (evalOf mod "notes").1 (evalOf mod "notes").2, rep1) :
              SweepResult)
          = acc ++ [(mod ++ "_Raw",
              (get_score (evalOf mod "notes").1 (evalOf mod "notes").2, rep1))] :=
        dictInsert_of_not_mem _ _ _ hfreshR
      refine ?_
      simp only [Analyze_models_loop, hft1, except_bind_ok]
      have hft2 := fine_tune_ok mod evalOf embedOf label_keys "notes_preprocess"
        (get_plain_embedding_similarity (mod ++ "_fine_tune_" ++ "notes")
          (embedOf (mod ++ "_fine_tune_" ++ "notes"))
          (get_plain_embedding_similarity mod (embedOf mod) tm word_pairs)
          word_pairs) word_pairs hrep2
      simp only [hft2, except_bind_ok]
      have hacc2keys : (dictInsert (dictInsert acc (mod ++ "_Raw")
            ((get_score (evalOf mod "notes").1 (evalOf mod "notes").2, rep1) :
              SweepResult)) (mod ++ "_Preprocess")
            ((get_score (evalOf mod "notes_preprocess").1
                (evalOf mod "notes_preprocess").2, rep2) : SweepResult)).map Prod.fst
          = acc.map Prod.fst ++ [mod ++ "_Raw", mod ++ "_Preprocess"] := by
        rw [dictInsert_keys_of_not_mem _ _ _ hPnot1, hacc1keys, List.append_assoc]
        rfl
      have hacc2eq : dictInsert (dictInsert acc (mod ++ "_Raw")
            ((get_score (evalOf mod "notes").1 (evalOf mod "notes").2, rep1) :
              SweepResult)) (mod ++ "_Preprocess")
            ((get_score (evalOf mod "notes_preprocess").1
                (evalOf mod "notes_preprocess").2, rep2) : SweepResult)
          = (acc ++ [(mod ++ "_Raw",
              (get_score (evalOf mod "notes").1 (evalOf mod "notes").2, rep1))]) ++
            [(mod ++ "_Preprocess",
              (get_score (evalOf mod "notes_preprocess").1
                (evalOf mod "notes_preprocess").2, rep2))] := by
        rw [dictInsert_of_not_mem _ _ _ hPnot1, hacc1eq]
      have hfresh2 : ∀ m ∈ rest, (m ++ "_Raw") ∉ (dictInsert (dictInsert acc
            (mod ++ "_Raw")
            ((get_score (evalOf mod "notes").1 (evalOf mod "notes").2, rep1) :
              SweepResult)) (mod ++ "_Preprocess")
            ((get_score (evalOf mod "notes_preprocess").1
                (evalOf mod "notes_preprocess").2, rep2) : SweepResult)).map Prod.fst ∧
          (m ++ "_Preprocess") ∉ (dictInsert (dictInsert acc (mod ++ "_Raw")
            ((get_score (evalOf mod "notes").1 (evalOf mod "notes").2, rep1) :
              SweepResult)) (mod ++ "_Preprocess")
            ((get_score (evalOf mod "notes_preprocess").1
                (evalOf mod "notes_preprocess").2, rep2) : SweepResult)).map Prod.fst := by
        intro m hm
        have hmne : m ≠ mod := fun h => hnodup'.1 (h ▸ hm)
        rw [hacc2keys]
        constructor
        · intro hmem
          rcases List.mem_append.1 hmem with h | h
          · exact (hfresh m (List.mem_cons_of_mem _ hm)).1 h
          · rcases List.mem_cons.1 h with h1 | h1
            · exact hmne (append_cancel_str h1)
            · exact raw_ne_preprocess m mod (List.mem_singleton.1 h1)
        · intro hmem
          rcases List.mem_append.1 hmem with h | h
          · exact (hfresh m (List.mem_cons_of_mem _ hm)).2 h
          · rcases List.mem_cons.1 h with h1 | h1
            · exact raw_ne_preprocess mod m h1.symm
            · exact hmne (append_cancel_str (List.mem_singleton.1 h1))
      have hshape2 : ∀ e ∈ (dictInsert (dictInsert acc (mod ++ "_Raw")
            ((get_score (evalOf mod "notes").1 (evalOf mod "notes").2, rep1) :
              SweepResult)) (mod ++ "_Preprocess")
            ((get_score (evalOf mod "notes_preprocess").1
                (evalOf mod "notes_preprocess").2, rep2) : SweepResult)),
          e.2.1.map Prod.fst = ["Accuracy", "Precision", "Recall", "F1-Score"] ∧
          e.2.2.length = label_keys.length + 3 := by
        intro e he
        rw [hacc2eq] at he
        rcases List.mem_append.1 he with h | h
        · rcases List.mem_append.1 h with h2 | h2
          · exact hshape e h2
          · rw [List.mem_singleton.1 h2]
            exact ⟨rfl, hrlen1⟩
        · rw [List.mem_singleton.1 h]
          exact ⟨rfl, hrlen2⟩
      obtain ⟨tm2, res, hloop, hreskeys, hresshape⟩ :=
        ih (get_plain_embedding_similarity (mod ++ "_fine_tune_" ++ "notes_preprocess")
            (embedOf (mod ++ "_fine_tune_" ++ "notes_preprocess"))
            (get_plain_embedding_similarity (mod ++ "_fine_tune_" ++ "notes")
              (embedOf (mod ++ "_fine_tune_" ++ "notes"))
              (get_plain_embedding_similarity mod (embedOf mod) tm word_pairs)
              word_pairs) word_pairs)
          (dictInsert (dictInsert acc (mod ++ "_Raw")
            ((get_score (evalOf mod "notes").1 (evalOf mod "notes").2, rep1) :
              SweepResult)) (mod ++ "_Preprocess")
            ((get_score (evalOf mod "notes_preprocess").1
                (evalOf mod "notes_preprocess").2, rep2) : SweepResult))
          hnodup'.2
          (fun m hm td htd => hlab m (List.mem_cons_of_mem _ hm) td htd)
          hfresh2 hshape2
      refine ⟨tm2, res, hloop, ?_, hresshape⟩
      rw [hreskeys, hacc2keys, List.flatMap_cons, List.append_assoc]

/-- C8: for distinct configured model tags (with per-pass label sets
matching the category dictionary and sensible category names),
`Analyze_models` returns a results mapping whose keys are exactly
`tag + "_Raw"` and `tag + "_Preprocess"` for each tag in sweep order —
two entries per tag — each holding the one-row scores table (columns
Accuracy, Precision, Recall, F1-Score) and a classification-report table
with one row per category plus the three summary rows (accuracy, macro
avg, weighted avg). -/
theorem Analyze_models_results_shape {d : ℕ}
    (evalOf : String → String → List ℤ × List ℤ)
    (embedOf : String → (String × String → (Fin d → ℝ) × (Fin d → ℝ)))
    (label_keys : List String) (word_pairs : List (String × String))
    (model_tags : List String) (term_matching : TermDF)
    (htags : model_tags.Nodup)
    (hlab : ∀ mod ∈ model_tags, ∀ td ∈ (["notes", "notes_preprocess"] : List String),
      (sortedLabels (evalOf mod td).1 (evalOf mod td).2).length = label_keys.length)
    (hkeys : (label_keys ++ ["accuracy", "macro avg", "weighted avg"]).Nodup) :
    ∃ tm2 res,
      Analyze_models evalOf embedOf label_keys word_pairs model_tags term_matching =
        Except.ok (tm2, res) ∧
      res.map Prod.fst =
        model_tags.flatMap (fun m => [m ++ "_Raw", m ++ "_Preprocess"]) ∧
      (∀ e ∈ res, e.2.1.map Prod.fst = ["Accuracy", "Precision", "Recall", "F1-Score"] ∧
        e.2.2.length = label_keys.length + 3) := by
  obtain ⟨tm2, res, hloop, hkeysres, hshape⟩ :=
    Analyze_models_loop_spec evalOf embedOf label_keys word_pairs hkeys model_tags
      term_matching [] htags hlab (fun mod _ => ⟨by simp, by simp⟩)
      (fun e he => absurd he (List.not_mem_nil e))
  exact ⟨tm2, res, hloop, by simpa using hkeysres, hshape⟩

/-- Witness for C8: one tag, two categories, a concrete evaluation
oracle. -/
theorem Analyze_models_results_shape_witness :
    (["A"] : List String).Nodup ∧
    (∀ mod ∈ (["A"] : List String),
      ∀ td ∈ (["notes", "notes_preprocess"] : List String),
      (sortedLabels ((fun (_ _ : String) => (([0, 1], [0, 1]) :
        List ℤ × List ℤ)) mod td).1
        ((fun (_ _ : String) => (([0, 1], [0, 1]) : List ℤ × List ℤ)) mod td).2).length =
        (["x", "y"] : List String).length) ∧
    ((["x", "y"] ++ ["accuracy", "macro avg", "weighted avg"]) :
      List String).Nodup ∧
    (∃ tm2 res,
      Analyze_models (fun (_ _ : String) => (([0, 1], [0, 1]) : List ℤ × List ℤ))
          (fun _ => exampleEmbed) ["x", "y"] examplePairs ["A"] exampleDF =
        Except.ok (tm2, res) ∧
      res.map Prod.fst =
        (["A"] : List String).flatMap (fun m => [m ++ "_Raw", m ++ "_Preprocess"]) ∧
      (∀ e ∈ res, e.2.1.map Prod.fst = ["Accuracy", "Precision", "Recall", "F1-Score"] ∧
        e.2.2.length = (["x", "y"] : List String).length + 3)) :=
  ⟨by decide, by decide, by decide,
    Analyze_models_results_shape
      (fun (_ _ : String) => (([0, 1], [0, 1]) : List ℤ × List ℤ))
      (fun _ => exampleEmbed) ["x", "y"] examplePairs ["A"] exampleDF
      (by decide) (by decide) (by decide)⟩

end Holmusk
